import Mathlib

/-!
Verification of the `uri-pattern-matcher` crate (src/lib.rs).

Strings are modelled as `List Char` (the sequence of characters of a Rust
`&str`); splitting on the separator is modelled by `splitChar`, which follows
the semantics of Rust's `str::split('/')`.

`lib.rs` declares `mod pattern_part;` and `mod uri_pattern_score;`, but those
two files are not part of the sources; the segment classification
(`PatternPart.fromSeg`) and the score comparison (`UriPattern.score`,
`scoreCompare`) are therefore modelled from the specification, as their doc
comments record. Everything else is translated from `src/lib.rs`.
-/

/-- The segment type of `pattern_part.rs`: a placeholder (called a joker in
the crate) or a literal value holding the raw segment text. The two variants
and the payload of `Value` are pinned by the `match` in `UriPattern::is_match`
in `lib.rs`. -/
inductive PatternPart where
  | Joker : PatternPart
  | Value : List Char → PatternPart
deriving DecidableEq

/-- Splitting a character list on a separator character, with the semantics of
Rust's `str::split(sep)`: the empty string yields one empty segment, and every
occurrence of the separator starts a new segment, so leading, trailing and
doubled separators yield empty segments. -/
def splitChar (sep : Char) (s : List Char) : List (List Char) :=
  match s with
  | [] => [[]]
  | c :: rest =>
    if c = sep then [] :: splitChar sep rest
    else
      match splitChar sep rest with
      | [] => [[c]]
      | seg :: segs => (c :: seg) :: segs

/-- Modelled from the spec: `lib.rs` declares `mod pattern_part;` but the file
`pattern_part.rs` is absent from the sources, so the classification performed
by `From<&str> for PatternPart` is taken from spec section 4.1: if the
segment's first character is an opening brace, its last character is a closing
brace and its length is at least 2, it is a placeholder (Joker); otherwise it
is a literal holding the raw text. -/
def PatternPart.fromSeg (s : List Char) : PatternPart :=
  if 2 ≤ s.length ∧ s.head? = some '\x7b' ∧ s.getLast? = some '\x7d' then
    PatternPart.Joker
  else
    PatternPart.Value s

/-- `UriPattern` from `lib.rs`: the original text plus the parsed parts. -/
structure UriPattern where
  value : List Char
  parts : List PatternPart
deriving DecidableEq

/-- `From<&str> for UriPattern` from `lib.rs`: split the pattern text on the
separator and classify every segment. -/
def UriPattern.fromStr (s : List Char) : UriPattern :=
  { value := s, parts := (splitChar '/' s).map PatternPart.fromSeg }

/-- `UriPattern::is_match` from `lib.rs`: split the candidate on the
separator; if the segment count differs from the pattern's part count return
false, otherwise enumerate the candidate segments, look the corresponding part
up, let a Joker accept anything and a Value require equality, and succeed iff
no position produced `false`. -/
def UriPattern.is_match (p : UriPattern) (candidate : List Char) : Bool :=
  let splitted := splitChar '/' candidate
  if splitted.length ≠ p.parts.length then
    false
  else
    !((splitted.enum.map (fun kv =>
        match p.parts[kv.1]? with
        | some PatternPart.Joker => true
        | some (PatternPart.Value s) => s == kv.2
        | none => false)).contains false)

/-- Modelled from the spec: `lib.rs` declares `mod uri_pattern_score;` but the
file `uri_pattern_score.rs` is absent from the sources. Spec section 4.3: the
score of a pattern is the ordered tuple of per-segment is-literal flags. -/
def PatternPart.isLiteral : PatternPart → Bool
  | PatternPart.Joker => false
  | PatternPart.Value _ => true

/-- Modelled from the spec (section 4.3): the derived score of a pattern is
its is-literal flag tuple, in segment order. -/
def UriPattern.score (p : UriPattern) : List Bool :=
  p.parts.map PatternPart.isLiteral

/-- Modelled from the spec (section 4.3): scores are compared
lexicographically, left to right, the earliest differing position deciding,
with literal (`true`) greater than placeholder (`false`); when one tuple is a
proper prefix of the other, the longer one is greater. -/
def scoreCompare : List Bool → List Bool → Ordering
  | [], [] => Ordering.eq
  | [], _ :: _ => Ordering.lt
  | _ :: _, [] => Ordering.gt
  | a :: as, b :: bs =>
    match a, b with
    | false, true => Ordering.lt
    | true, false => Ordering.gt
    | _, _ => scoreCompare as bs

/-- `Ord::cmp for UriPattern` from `lib.rs`: convert both sides to scores and
compare the scores. -/
def UriPattern.cmp (p q : UriPattern) : Ordering :=
  scoreCompare p.score q.score

/-- `PartialEq for UriPattern` from `lib.rs`: convert both sides to scores and
compare the scores for equality (score equality is identical flag tuples, per
spec section 4.3: equal score iff identical is-literal tuple and length). -/
def UriPattern.beq (p q : UriPattern) : Bool :=
  p.score == q.score

/-- The spec's per-segment match relation (section 4.2): a placeholder
matches any candidate segment unconditionally, a literal only a candidate
segment with identical content. Used as the specification side when
characterising `UriPattern.is_match`. -/
def partMatches : PatternPart → List Char → Bool
  | PatternPart.Joker, _ => true
  | PatternPart.Value s, v => s == v

/-- The filter-then-maximum usage from `lib.rs` (doc example and the
`best_match_with_ord` test): keep the patterns matching the candidate and take
the maximum under `UriPattern.cmp`, Rust's `Iterator::max` returning the last
maximal element on ties. -/
def best_match (patterns : List UriPattern) (candidate : List Char) : Option UriPattern :=
  (patterns.filter (fun p => p.is_match candidate)).foldl
    (fun acc p =>
      match acc with
      | none => some p
      | some m => if UriPattern.cmp m p = Ordering.gt then some m else some p)
    none

/-- The per-position check inside `UriPattern.is_match`, abbreviated for the
characterisation lemma below. -/
def posCheck (parts : List PatternPart) (kv : Nat × List Char) : Bool :=
  match parts[kv.1]? with
  | some PatternPart.Joker => true
  | some (PatternPart.Value s) => s == kv.2
  | none => false

/-- The three templates of the `best_match_with_ord` test and of the doc
example in `lib.rs`. -/
def testPatterns : List UriPattern :=
  [UriPattern.fromStr "/api/\x7bfoo\x7d/bar/\x7bzzz\x7d".toList,
   UriPattern.fromStr "/api/\x7bfoo\x7d/\x7bbar\x7d/zzz".toList,
   UriPattern.fromStr "/\x7bapi\x7d/\x7bfoo\x7d/foo/\x7bzzz\x7d".toList]

/-! ## General lemmas -/

/-- Splitting never produces an empty segment list: there is always at least
one segment, even for the empty string. -/
lemma splitChar_ne_nil (sep : Char) (s : List Char) : splitChar sep s ≠ [] := by
  induction s with
  | nil => simp [splitChar]
  | cons c rest ih =>
    by_cases h : c = sep
    · simp [splitChar, h]
    · simp only [splitChar, h, if_false]
      cases hr : splitChar sep rest with
      | nil => simp
      | cons seg segs => simp

lemma posCheck_true_iff (parts : List PatternPart) (i : Nat) (v : List Char)
    (hi : i < parts.length) :
    posCheck parts (i, v) = true ↔ partMatches parts[i] v = true := by
  unfold posCheck
  rw [List.getElem?_eq_getElem hi]
  cases parts[i] with
  | Joker => simp [partMatches]
  | Value s => simp [partMatches]

/-- Bridge between the enumerate-based loop of the source and the positional
statement of the spec: when the lengths agree, every enumerated position
passing `posCheck` is the same as every `zip`ped pair satisfying
`partMatches`. -/
lemma enum_all_iff_zip_all (parts : List PatternPart) (ss : List (List Char))
    (h : ss.length = parts.length) :
    (∀ kv ∈ ss.enum, posCheck parts kv = true)
      ↔ ∀ x ∈ parts.zip ss, partMatches x.1 x.2 = true := by
  constructor
  · intro hall x hx
    rcases List.mem_iff_getElem.mp hx with ⟨i, hi, hx⟩
    rw [List.length_zip] at hi
    have hip : i < parts.length := by omega
    have his : i < ss.length := by omega
    rw [List.getElem_zip] at hx
    subst hx
    have hmem : (i, ss[i]) ∈ ss.enum :=
      List.mem_enum_iff_getElem?.mpr (List.getElem?_eq_getElem his)
    have := hall _ hmem
    exact (posCheck_true_iff parts i ss[i] hip).mp this
  · intro hall kv hkv
    have hget : ss[kv.1]? = some kv.2 := List.mem_enum_iff_getElem?.mp hkv
    have his : kv.1 < ss.length := (List.getElem?_eq_some.mp hget).1
    have hip : kv.1 < parts.length := by omega
    have hv : ss[kv.1] = kv.2 := by
      have := List.getElem?_eq_getElem his
      rw [this] at hget
      exact Option.some.inj hget
    have hmem : (parts[kv.1], ss[kv.1]) ∈ parts.zip ss := by
      apply List.mem_iff_getElem.mpr
      refine ⟨kv.1, ?_, ?_⟩
      · rw [List.length_zip]; omega
      · rw [List.getElem_zip]
    have := hall _ hmem
    rw [hv] at this
    have := (posCheck_true_iff parts kv.1 kv.2 hip).mpr this
    cases kv
    exact this

/-- Characterisation of `UriPattern.is_match`: it returns `true` exactly when
the candidate splits into as many segments as the pattern has parts and every
part matches its candidate segment in the sense of `partMatches`. -/
lemma is_match_iff (p : UriPattern) (c : List Char) :
    p.is_match c = true ↔
      ((splitChar '/' c).length = p.parts.length ∧
        ∀ x ∈ p.parts.zip (splitChar '/' c), partMatches x.1 x.2 = true) := by
  unfold UriPattern.is_match
  by_cases h : (splitChar '/' c).length = p.parts.length
  · rw [if_neg (fun hh => hh h)]
    show (!(((splitChar '/' c).enum.map (posCheck p.parts)).contains false)) = true ↔ _
    constructor
    · intro hm
      refine ⟨h, (enum_all_iff_zip_all p.parts _ h).mp ?_⟩
      intro kv hkv
      have hb : posCheck p.parts kv ∈ (splitChar '/' c).enum.map (posCheck p.parts) :=
        List.mem_map_of_mem _ hkv
      have : ∀ b ∈ (splitChar '/' c).enum.map (posCheck p.parts), b = true := by
        simpa using hm
      exact this _ hb
    · intro hm
      have hall := (enum_all_iff_zip_all p.parts _ h).mpr hm.2
      have : ∀ b ∈ (splitChar '/' c).enum.map (posCheck p.parts), b = true := by
        intro b hb
        rcases List.mem_map.mp hb with ⟨kv, hkv, rfl⟩
        exact hall kv hkv
      simpa using this
  · rw [if_pos h]
    constructor
    · intro hm
      exact absurd hm Bool.false_ne_true
    · intro hm
      exact absurd hm.1 h

/-- `scoreCompare` is antisymmetric: swapping the arguments swaps the
resulting `Ordering`. -/
lemma scoreCompare_swap : ∀ a b : List Bool, scoreCompare b a = (scoreCompare a b).swap := by
  intro a
  induction a with
  | nil =>
    intro b
    cases b <;> rfl
  | cons x as ih =>
    intro b
    cases b with
    | nil => rfl
    | cons y bs =>
      cases x <;> cases y <;> simp [scoreCompare, ih bs, Ordering.swap]

/-- `scoreCompare` returns `eq` exactly on identical flag tuples. -/
lemma scoreCompare_eq_iff : ∀ a b : List Bool, scoreCompare a b = Ordering.eq ↔ a = b := by
  intro a
  induction a with
  | nil =>
    intro b
    cases b <;> simp [scoreCompare]
  | cons x as ih =>
    intro b
    cases b with
    | nil => simp [scoreCompare]
    | cons y bs =>
      cases x <;> cases y <;> simp [scoreCompare, ih bs]

/-- `scoreCompare` is transitive in its strict part. -/
lemma scoreCompare_lt_trans : ∀ a b c : List Bool,
    scoreCompare a b = Ordering.lt → scoreCompare b c = Ordering.lt →
    scoreCompare a c = Ordering.lt := by
  intro a
  induction a with
  | nil =>
    intro b c hab hbc
    cases b with
    | nil => exact hbc
    | cons y bs =>
      cases c with
      | nil => cases y <;> simp [scoreCompare] at hbc
      | cons z cs => rfl
  | cons x as ih =>
    intro b c hab hbc
    cases b with
    | nil => cases x <;> simp [scoreCompare] at hab
    | cons y bs =>
      cases c with
      | nil => cases y <;> simp [scoreCompare] at hbc
      | cons z cs =>
        cases x <;> cases y <;> cases z <;>
          simp_all [scoreCompare] <;> exact ih bs cs hab hbc

/-- If the flag tuples agree strictly below position `i`, and at position `i`
the first has a literal and the second a placeholder, the first compares
greater — whatever the tuples hold after position `i`. -/
lemma scoreCompare_gt_at (i : Nat) : ∀ a b : List Bool,
    (∀ j, j < i → a[j]? = b[j]?) → a[i]? = some true → b[i]? = some false →
    scoreCompare a b = Ordering.gt := by
  induction i with
  | zero =>
    intro a b _ ha hb
    match a, b with
    | true :: as, false :: bs => rfl
    | true :: as, true :: bs => simp at hb
    | false :: as, _ => simp at ha
    | _, [] => simp at hb
    | [], _ => simp at ha
  | succ n ih =>
    intro a b hpre ha hb
    match a, b with
    | [], _ => simp at ha
    | _, [] => simp at hb
    | x :: as, y :: bs =>
      have hxy : x = y := by
        have := hpre 0 (Nat.succ_pos n)
        simpa using this
      subst hxy
      have hrec : scoreCompare as bs = Ordering.gt := by
        apply ih as bs
        · intro j hj
          have := hpre (j + 1) (Nat.succ_lt_succ hj)
          simpa using this
        · simpa using ha
        · simpa using hb
      cases x <;> simpa [scoreCompare] using hrec

/-- A proper extension of a flag tuple compares greater: if the first tuple is
shorter and the two agree at every position of the shorter one, the first
compares less. -/
lemma scoreCompare_longer : ∀ a b : List Bool, a.length < b.length →
    (∀ j, j < a.length → a[j]? = b[j]?) → scoreCompare a b = Ordering.lt := by
  intro a
  induction a with
  | nil =>
    intro b hlen _
    cases b with
    | nil => simp at hlen
    | cons y bs => rfl
  | cons x as ih =>
    intro b hlen hpre
    cases b with
    | nil => simp at hlen
    | cons y bs =>
      have hxy : x = y := by
        have := hpre 0 (by simp)
        simpa using this
      subst hxy
      have hrec : scoreCompare as bs = Ordering.lt := by
        apply ih bs
        · simpa using hlen
        · intro j hj
          have := hpre (j + 1) (by simpa using Nat.succ_lt_succ hj)
          simpa using this
      cases x <;> simpa [scoreCompare] using hrec

/-! ## Claims -/

/-- C1: ordering follows the position-wise lexicographic rule with earlier
positions dominating and literal greater than placeholder: the patterns built
from `/a/{b}/{c}/d` and `/a/{b}/c/{d}` have the is-literal tuples recorded in
the first two conjuncts; the first position whose flags differ (index 3)
holds a literal in the second pattern, so the pattern built from
`/a/{b}/c/{d}` compares strictly greater. -/
theorem claim_C1 :
    (UriPattern.fromStr "/a/\x7bb\x7d/\x7bc\x7d/d".toList).score
        = [true, true, false, false, true]
    ∧ (UriPattern.fromStr "/a/\x7bb\x7d/c/\x7bd\x7d".toList).score
        = [true, true, false, true, false]
    ∧ UriPattern.cmp (UriPattern.fromStr "/a/\x7bb\x7d/c/\x7bd\x7d".toList)
        (UriPattern.fromStr "/a/\x7bb\x7d/\x7bc\x7d/d".toList) = Ordering.gt
    ∧ UriPattern.cmp (UriPattern.fromStr "/a/\x7bb\x7d/\x7bc\x7d/d".toList)
        (UriPattern.fromStr "/a/\x7bb\x7d/c/\x7bd\x7d".toList) = Ordering.lt := by
  decide

/-- C2 counterexample: filtering the three test patterns to those matching
`/api/resource/bar/zzz` and taking the maximum under the pattern ordering
yields a pattern that is not equal — under the crate's score equality — to
the pattern built from `/api/{foo}/{bar}/zzz`, refuting the claim as
stated. -/
theorem claim_C2_counterexample :
    (best_match testPatterns "/api/resource/bar/zzz".toList).map
        (fun m => UriPattern.beq m
          (UriPattern.fromStr "/api/\x7bfoo\x7d/\x7bbar\x7d/zzz".toList))
      = some false := by
  decide

/-- C2 (amended): filtering the three test patterns to those matching
`/api/resource/bar/zzz` and taking the maximum under the pattern ordering
yields the pattern built from `/api/{foo}/bar/{zzz}`: of the two matching
patterns, the first is-literal position where they differ (index 3) holds a
literal in `/api/{foo}/bar/{zzz}`, which therefore compares greater. -/
theorem claim_C2 :
    best_match testPatterns "/api/resource/bar/zzz".toList
      = some (UriPattern.fromStr "/api/\x7bfoo\x7d/bar/\x7bzzz\x7d".toList) := by
  decide

/-- C3: for every pattern and candidate, `is_match` returns true iff the
candidate splits into exactly as many segments as the pattern has parts and
every part matches its candidate segment (a placeholder unconditionally, a
literal only an identical segment); in particular a differing segment count
always yields false. -/
theorem claim_C3 (p : UriPattern) (c : List Char) :
    (p.is_match c = true ↔
      ((splitChar '/' c).length = p.parts.length ∧
        ∀ x ∈ p.parts.zip (splitChar '/' c), partMatches x.1 x.2 = true))
    ∧ ((splitChar '/' c).length ≠ p.parts.length → p.is_match c = false) := by
  refine ⟨is_match_iff p c, fun h => ?_⟩
  cases hm : p.is_match c
  · rfl
  · exact absurd ((is_match_iff p c).mp hm).1 h

/-- C4: pattern equality is structural, not textual: two patterns are equal
iff their derived scores are equal; the patterns built from `/a/{b}/{c}/d`
and `/x/{y}/{z}/w` (same shape) compare equal, while the ones built from
`/a/{b}/{c}/d` and `/a/{b}/c/{d}` (differing shape) compare unequal. -/
theorem claim_C4 :
    (∀ p q : UriPattern, (UriPattern.beq p q = true ↔ p.score = q.score))
    ∧ UriPattern.beq (UriPattern.fromStr "/a/\x7bb\x7d/\x7bc\x7d/d".toList)
        (UriPattern.fromStr "/x/\x7by\x7d/\x7bz\x7d/w".toList) = true
    ∧ UriPattern.beq (UriPattern.fromStr "/a/\x7bb\x7d/\x7bc\x7d/d".toList)
        (UriPattern.fromStr "/a/\x7bb\x7d/c/\x7bd\x7d".toList) = false := by
  refine ⟨fun p q => ?_, by decide, by decide⟩
  simp [UriPattern.beq]

/-- C5: a pattern with a literal at position `i` where another has a
placeholder there, both agreeing in kind at every earlier position and of
equal length, compares strictly greater — whatever the later positions hold,
so the increase dominates any later differences. -/
theorem claim_C5 (p q : UriPattern) (i : Nat)
    (_hlen : q.parts.length = p.parts.length)
    (hpre : ∀ j, j < i → q.score[j]? = p.score[j]?)
    (hq : q.score[i]? = some true)
    (hp : p.score[i]? = some false) :
    UriPattern.cmp q p = Ordering.gt :=
  scoreCompare_gt_at i q.score p.score hpre hq hp

/-- C5 witness: the pattern built from `/a/b` (literal at position 2)
compares strictly greater than the one built from `/a/{b}` (placeholder at
position 2). -/
theorem claim_C5_witness :
    UriPattern.cmp (UriPattern.fromStr "/a/b".toList)
        (UriPattern.fromStr "/a/\x7bb\x7d".toList) = Ordering.gt :=
  claim_C5 (UriPattern.fromStr "/a/\x7bb\x7d".toList)
    (UriPattern.fromStr "/a/b".toList) 2
    (by decide)
    (fun j hj => by
      match j with
      | 0 => rfl
      | 1 => rfl
      | n + 2 => exact absurd hj (by omega))
    (by decide) (by decide)

/-- C6: when two patterns' is-literal flags agree at every position of the
shorter one and the segment counts differ, the pattern with more segments
compares strictly greater; and the comparison is a total order: swapping the
arguments swaps the result, `eq` holds exactly on equal scores, and the
strict part is transitive. -/
theorem claim_C6 :
    (∀ p q : UriPattern, p.parts.length < q.parts.length →
      (∀ j, j < p.parts.length → p.score[j]? = q.score[j]?) →
      UriPattern.cmp q p = Ordering.gt ∧ UriPattern.cmp p q = Ordering.lt)
    ∧ (∀ p q : UriPattern, UriPattern.cmp q p = (UriPattern.cmp p q).swap)
    ∧ (∀ p q : UriPattern, UriPattern.cmp p q = Ordering.eq ↔ p.score = q.score)
    ∧ (∀ p q r : UriPattern,
        UriPattern.cmp p q = Ordering.lt → UriPattern.cmp q r = Ordering.lt →
        UriPattern.cmp p r = Ordering.lt) := by
  refine ⟨fun p q hlen hpre => ?_,
    fun p q => scoreCompare_swap p.score q.score,
    fun p q => scoreCompare_eq_iff p.score q.score,
    fun p q r => scoreCompare_lt_trans p.score q.score r.score⟩
  have hslen : p.score.length < q.score.length := by
    simpa [UriPattern.score] using hlen
  have hlt : scoreCompare p.score q.score = Ordering.lt := by
    apply scoreCompare_longer p.score q.score hslen
    intro j hj
    apply hpre
    simpa [UriPattern.score] using hj
  constructor
  · show scoreCompare q.score p.score = Ordering.gt
    rw [scoreCompare_swap p.score q.score, hlt]
    rfl
  · exact hlt

/-- C6 witness: the pattern built from `/a/b` (three segments, all flags
agreeing with the shorter pattern's) compares strictly greater than the one
built from `/a` (two segments). -/
theorem claim_C6_witness :
    UriPattern.cmp (UriPattern.fromStr "/a/b".toList)
        (UriPattern.fromStr "/a".toList) = Ordering.gt :=
  (claim_C6.1 (UriPattern.fromStr "/a".toList) (UriPattern.fromStr "/a/b".toList)
    (by decide)
    (fun j hj => by
      match j with
      | 0 => rfl
      | 1 => rfl
      | n + 2 =>
        exact absurd hj (by
          have hl : (UriPattern.fromStr "/a".toList).parts.length = 2 := by decide
          omega))).1

/-- C7: every pattern matches its own source text: literal parts are the
source segments themselves and placeholders accept anything. -/
theorem claim_C7 (s : List Char) : (UriPattern.fromStr s).is_match s = true := by
  apply (is_match_iff _ s).mpr
  refine ⟨by simp [UriPattern.fromStr], ?_⟩
  intro x hx
  rcases List.mem_iff_getElem.mp hx with ⟨i, hi, hx⟩
  subst hx
  rw [List.getElem_zip]
  simp only [UriPattern.fromStr, List.getElem_map]
  unfold PatternPart.fromSeg
  split
  · rfl
  · simp [partMatches]

/-- C8: a segment is classified as a placeholder exactly when its first
character is an opening brace, its last is a closing brace, and its length is
at least 2; the two-character brace pair is a placeholder matching every
segment, the empty one included, and a lone opening brace is a literal
matching exactly itself. -/
theorem claim_C8 :
    (∀ s : List Char, PatternPart.fromSeg s = PatternPart.Joker ↔
      (2 ≤ s.length ∧ s.head? = some '\x7b' ∧ s.getLast? = some '\x7d'))
    ∧ PatternPart.fromSeg "\x7b\x7d".toList = PatternPart.Joker
    ∧ (∀ c : List Char, partMatches (PatternPart.fromSeg "\x7b\x7d".toList) c = true)
    ∧ partMatches (PatternPart.fromSeg "\x7b\x7d".toList) [] = true
    ∧ PatternPart.fromSeg "\x7b".toList = PatternPart.Value "\x7b".toList
    ∧ (∀ c : List Char,
        partMatches (PatternPart.fromSeg "\x7b".toList) c = true ↔ c = "\x7b".toList) := by
  refine ⟨fun s => ?_, by decide, fun c => ?_, by decide, by decide, fun c => ?_⟩
  · unfold PatternPart.fromSeg
    split
    · simp_all
    · simp_all
  · have h2 : PatternPart.fromSeg "\x7b\x7d".toList = PatternPart.Joker := by decide
    rw [h2]
    rfl
  · have h1 : PatternPart.fromSeg "\x7b".toList = PatternPart.Value "\x7b".toList := by
      decide
    rw [h1]
    simp only [partMatches, beq_iff_eq]
    exact eq_comm

/-- C9: every operation is total over all inputs: construction from any
string (the empty one included) yields one part per split segment and at
least one part, equality and ordering always return a definite value, and
`is_match` always returns a definite Boolean. -/
theorem claim_C9 :
    (UriPattern.fromStr "".toList).parts = [PatternPart.Value []]
    ∧ (∀ s : List Char, (UriPattern.fromStr s).parts.length = (splitChar '/' s).length
        ∧ 1 ≤ (UriPattern.fromStr s).parts.length)
    ∧ (∀ p q : UriPattern,
        (UriPattern.beq p q = true ∨ UriPattern.beq p q = false)
        ∧ (UriPattern.cmp p q = Ordering.lt ∨ UriPattern.cmp p q = Ordering.eq
            ∨ UriPattern.cmp p q = Ordering.gt))
    ∧ (∀ (p : UriPattern) (c : List Char),
        p.is_match c = true ∨ p.is_match c = false) := by
  refine ⟨by decide, fun s => ⟨by simp [UriPattern.fromStr], ?_⟩,
    fun p q => ⟨?_, ?_⟩, fun p c => ?_⟩
  · have hne := splitChar_ne_nil '/' s
    have hpos : 0 < (splitChar '/' s).length := List.length_pos.mpr hne
    simp only [UriPattern.fromStr, List.length_map]
    omega
  · cases h : UriPattern.beq p q <;> simp
  · cases h : UriPattern.cmp p q <;> simp
  · cases h : p.is_match c <;> simp

/-- C10: pattern equality is not a congruence for matching: the patterns
built from `/a/{b}` and `/x/{y}` are equal under the crate's equality, yet
the first matches `/a/z` and the second does not. -/
theorem claim_C10 :
    UriPattern.beq (UriPattern.fromStr "/a/\x7bb\x7d".toList)
        (UriPattern.fromStr "/x/\x7by\x7d".toList) = true
    ∧ (UriPattern.fromStr "/a/\x7bb\x7d".toList).is_match "/a/z".toList = true
    ∧ (UriPattern.fromStr "/x/\x7by\x7d".toList).is_match "/a/z".toList = false := by
  decide
